import Mathlib

/-!
# Verification of the grammar-diagram generator (`src/pikchr/syntax_tree.py`)

This file gives a shallow embedding of the two components of the program:

* the **Rule Extractor** (`parse`, lines 8-20): regex-driven extraction of
  `(nonterminal, token list)` pairs from grammar text, and
* the **Graph Expander** (`render`, lines 48-100, and the top-level loop of
  `main`, lines 112-118): recursive expansion of the rule table into graphviz
  node/edge/subgraph declarations.

Python's mutable state is threaded explicitly: the global counter `dbg_count`
and the `defaultdict` rule table `dd` are passed in and returned; the calls to
the graphviz sink become an emitted list of `Decl` values in emission order.
Recursion in `render` is unbounded in Python, so the embedding takes a fuel
argument that is decremented at every step; a Python run that terminates is
reproduced by every sufficiently large fuel, and a Python run that diverges
yields `none` at every fuel.

All strings handled by the program are ASCII; character-class functions
(`isWS` for the regex class `\s`, `pyIsUpper` for `str.isupper`) are stated
for that alphabet.
-/

/-- The regex class `\s` (Python `re`), on the ASCII alphabet:
space, tab, newline, carriage return, vertical tab, form feed. -/
def isWS (c : Char) : Bool :=
  c == ' ' || c == '\t' || c == '\n' || c == '\r' || c == '\x0b' || c == '\x0c'

/-- Python `str.strip()`: drop leading and trailing whitespace. -/
def pyStrip (cs : List Char) : List Char :=
  ((cs.dropWhile isWS).reverse.dropWhile isWS).reverse

/-- Worker for `pySplitWS`.  The second argument is `some acc` while inside a
token (`acc` holds its characters reversed) and `none` while inside a
whitespace run that has already emitted its split point. -/
def splitWSGo : List Char → Option (List Char) → List (List Char)
  | [], some acc => [acc.reverse]
  | [], none => [[]]
  | c :: cs, some acc =>
    if isWS c then acc.reverse :: splitWSGo cs none else splitWSGo cs (some (c :: acc))
  | c :: cs, none =>
    if isWS c then splitWSGo cs none else splitWSGo cs (some [c])

/-- Python `re.split(r"\s+", s)` (line 12 compiled pattern `spaces`, applied at
line 18): split at each maximal whitespace run; an empty piece appears at an
end that starts or finishes with whitespace, and splitting the empty string
gives `[""]`. -/
def pySplitWS (cs : List Char) : List (List Char) :=
  splitWSGo cs (some [])

/-- Python `re.sub(r"\(.+\)", "", s)` with `DOTALL` (the compiled pattern
`no_paren` of line 11, applied at lines 16 and 18).  The leftmost match starts
at the first `(` that is followed, two or more positions later, by a `)`; the
greedy `.+` then extends the match to the last `)` of the string.  After that
removal no `)` remains, so the regex performs at most this one removal. -/
def noParenSub (cs : List Char) : List Char :=
  match cs.reverse.findIdx? (· == ')') with
  | none => cs
  | some rj =>
    let J := cs.length - 1 - rj
    match (cs.take (J - 1)).findIdx? (· == '(') with
    | none => cs
    | some i => cs.take i ++ cs.drop (J + 1)

/-- Match a literal character sequence at the head of the input, returning the
remainder. -/
def dropLit : List Char → List Char → Option (List Char)
  | [], cs => some cs
  | _ :: _, [] => none
  | l :: ls, c :: cs => if c == l then dropLit ls cs else none

/-- The literal marker `::=` of the rule regex (line 14). -/
def markerChars : List Char := [':', ':', '=']

/-- Lazy `(.*?)\.` with `DOTALL` (line 14): the content is everything before
the first `.` of the input; if no `.` occurs the match fails. -/
def splitAtDot (cs : List Char) : Option (List Char × List Char) :=
  match cs.dropWhile (fun c => !(c == '.')) with
  | [] => none
  | _ :: rest => some (cs.takeWhile (fun c => !(c == '.')), rest)

/-- Backtracking for `(\S+)\s*::=` (line 14): `w` is the maximal non-whitespace
run at the current position and `rest` what follows it.  The greedy `\S+` tries
the longest prefix of `w` first, then backtracks; after the chosen prefix a
maximal whitespace run is skipped and the literal `::=` must follow.  Returns
the captured left-hand identifier and the remainder after `::=`. -/
def tryLeft (w rest : List Char) : Nat → Option (List Char × List Char)
  | 0 => none
  | k + 1 =>
    match dropLit markerChars ((w.drop (k + 1) ++ rest).dropWhile isWS) with
    | some after => some (w.take (k + 1), after)
    | none => tryLeft w rest k

/-- One attempt of the rule regex `^\s*(\S+)\s*::=(.*?)\.` (line 14, flags
`MULTILINE | DOTALL`) at a position where `^` holds: skip whitespace (which may
span newlines), capture the left identifier with backtracking, then take the
lazily-matched content up to the first `.`.  Returns
`(left, content, remainder)`. -/
def matchRule (cs : List Char) : Option (List Char × List Char × List Char) :=
  let cs1 := cs.dropWhile isWS
  let w := cs1.takeWhile (fun c => !(isWS c))
  match tryLeft w (cs1.drop w.length) w.length with
  | none => none
  | some (left, afterM) =>
    match splitAtDot afterM with
    | none => none
    | some (content, rest) => some (left, content, rest)

/-- `re.findall` scanning (line 13): attempt the rule pattern at every position
where `^` holds (start of text, or just after a newline); on success continue
after the consumed span (whose last character is `.`, so `^` does not hold
there), on failure advance one character.  The fuel starts at
`length + 1` in `findRules`; every step consumes at least one character, so it
never runs out. -/
def findAux : Nat → List Char → Bool → List (List Char × List Char)
  | 0, _, _ => []
  | _ + 1, [], _ => []
  | fuel + 1, c :: cs, atStart =>
    if atStart then
      match matchRule (c :: cs) with
      | some (left, content, rest) => (left, content) :: findAux fuel rest false
      | none => findAux fuel cs (c == '\n')
    else findAux fuel cs (c == '\n')

/-- All matches of the rule regex over the text, in order. -/
def findRules (cs : List Char) : List (List Char × List Char) :=
  findAux (cs.length + 1) cs true

/-- Tokenization of a matched right-hand side (line 18):
`[no_paren.sub("", item) for item in spaces.split(right.strip())]`. -/
def rhsTokens (content : List Char) : List String :=
  (pySplitWS (pyStrip content)).map fun t => (noParenSub t).asString

/-- The Rule Extractor `parse` (lines 8-20), applied to already-loaded text:
for each regex match, strip parentheses from the left identifier and tokenize
the right-hand side. -/
def parseRules (text : String) : List (String × List String) :=
  (findRules text.data).map fun lr => ((noParenSub lr.1).asString, rhsTokens lr.2)

/-- The `subgraphs` tuple (lines 23-43), with the two commented-out entries
omitted exactly as in the source. -/
def subgraphs : List String :=
  ["basetype", "between", "boolproperty", "colorproperty", "dashproperty",
   "direction", "edge", "even", "lvalue", "numproperty", "print", "pritem",
   "prsep", "rvalue", "savelist", "withclause", "optrelexpr"]

/-- The `replace` alias table (lines 56-79), in source order.  Python raw
strings are transcribed literally (`r"\\n|;"` has two backslashes,
`r"\<empty string\>"` one before each angle bracket). -/
def replace : List (String × String) :=
  [("EOL", "\\\\n|;"),
   ("", "\\<empty string\\>"),
   ("EDGEPT", "bot|c|e|east|n|ne|north|nw|s|se|south|sw|w|west"),
   ("LAST", "last|previous"),
   ("PERCENT", "%"),
   ("LP", "("),
   ("RP", ")"),
   ("LB", "["),
   ("RB", "]"),
   ("COMMA", ","),
   ("COLON", ":"),
   ("GT", ">"),
   ("LT", "<"),
   ("EQ", "="),
   ("PLUS", "+"),
   ("MINUS", "-"),
   ("LRARROW", "\\<-\\>"),
   ("LARROW", "\\<-"),
   ("RARROW", "-\\>"),
   ("PLACENAME", "PLACENAME ([A-Z]+)"),
   ("CLASSNAME",
    "arc|arrow|box|circle|cylinder|dot|ellipse|file|line|move|oval|spline|text"),
   ("even", "UNTIL EVEN WITH|EVEN WITH")]

/-- `replace.get(orig_value, orig_value)` (line 83): the resolved display
label of a token. -/
def resolve (orig : String) : String :=
  match replace.find? (fun p => p.1 == orig) with
  | some p => p.2
  | none => orig

/-- `orig_value in replace` (line 94). -/
def isAlias (orig : String) : Bool :=
  (replace.find? (fun p => p.1 == orig)).isSome

/-- Python `str.isupper()` on ASCII strings (line 94): at least one letter and
no lowercase letter. -/
def pyIsUpper (s : String) : Bool :=
  s.data.any Char.isAlpha && s.data.all fun c => !c.isLower

/-- The color decision of lines 94-97: red when the resolved label is
uppercase or the raw token is an alias-table key, blue otherwise. -/
def leafColor (orig : String) : String :=
  if pyIsUpper (resolve orig) || isAlias orig then "red" else "blue"

/-- The boundary test of the top-level loop (line 113): `key in subgraphs`,
on the raw rule-table key. -/
def topLevelIsBoundary (key : String) : Bool :=
  subgraphs.contains key

/-- The boundary test of chain expansion (line 84): `value in subgraphs`,
on the alias-resolved display label. -/
def chainIsBoundary (orig : String) : Bool :=
  subgraphs.contains (resolve orig)

/-- Identifier synthesis `f"{sym}_{ctx}_{count}"` (lines 82 and 85). -/
def mkId (sym ctx : String) (n : Nat) : String :=
  sym ++ "_" ++ ctx ++ "_" ++ Nat.repr n

/-- Identifier synthesis `f"{key}_{idx}"` of the top-level loop (line 115). -/
def mkTopId (key : String) (idx : Nat) : String :=
  key ++ "_" ++ Nat.repr idx

/-- The rule table `dd : defaultdict[str, list[list[str]]]` (line 108),
as an insertion-ordered association list with unique keys. -/
abbrev Table := List (String × List (List String))

/-- Plain lookup in the rule table. -/
def ddFind (dd : Table) (k : String) : Option (List (List String)) :=
  (List.find? (fun p => p.1 == k) dd).map (·.2)

/-- `dd[value]` on a `defaultdict(list)` (line 91): a hit returns the stored
list and leaves the table unchanged; a miss inserts the key with an empty
list and returns that empty list. -/
def ddGet (dd : Table) (k : String) : List (List String) × Table :=
  match ddFind dd k with
  | some v => (v, dd)
  | none => ([], dd ++ ([(k, [])] : Table))

/-- One declaration handed to the graphviz sink, in emission order:
`node` is `dot.node(id, label, color=color)` (line 98), `plainNode` is the
color-less `dot.node(dot_key, key)` (line 116), `edge` is
`dot.edge(prev, dot2_key)` (line 99), and `openCluster`/`closeCluster`
delimit the `with dot.subgraph(...)` block of lines 86-90 (its `node_attr`
label is the resolved boundary name). -/
inductive Decl where
  | node (id label color : String)
  | plainNode (id label : String)
  | edge (src dst : String)
  | openCluster (id label : String)
  | closeCluster (id : String)
deriving DecidableEq

/-- The two loop shapes inside `render` (lines 80-100): `seq` is the main
`for orig_value in items` loop (carrying the context key `dot_key` and the
running `prev`), `alts` is the `for item in dd[value]` loop of line 91
(each iteration restarts a chain at the cluster's entry identifier). -/
inductive Job where
  | seq (dotKey prev : String) (items : List String)
  | alts (dotKey : String) (alts : List (List String))

/-- The Graph Expander `render` (lines 48-100).  State `(dd, cnt)` is the rule
table and the global `dbg_count`; the result is the emitted declaration list
together with the final state, or `none` when the fuel is exhausted (Python
recurses without bound, so a diverging run is `none` at every fuel).  Each
`orig` increments the counter, resolves its display label, and either opens a
subgraph for a boundary label — expanding every registered alternative inside
it, chained from the subgraph's entry identifier — or emits a colored leaf
node; either way an edge from `prev` is emitted and `prev` advances. -/
def run : Nat → Job → Table → Nat → Option (List Decl × Table × Nat)
  | 0, _, _, _ => none
  | _ + 1, .seq _ _ [], dd, cnt => some ([], dd, cnt)
  | fuel + 1, .seq k prev (orig :: rest), dd, cnt =>
    let cnt1 := cnt + 1
    let value := resolve orig
    if chainIsBoundary orig then
      let id := mkId value k cnt1
      let gr := ddGet dd value
      match run fuel (.alts id gr.1) gr.2 cnt1 with
      | none => none
      | some (sub, dd2, cnt2) =>
        match run fuel (.seq k id rest) dd2 cnt2 with
        | none => none
        | some (tail, dd3, cnt3) =>
          some (.openCluster id value :: (sub ++ .closeCluster id :: .edge prev id :: tail),
                dd3, cnt3)
    else
      let id := mkId orig k cnt1
      match run fuel (.seq k id rest) dd cnt1 with
      | none => none
      | some (tail, dd2, cnt2) =>
        some (.node id value (leafColor orig) :: .edge prev id :: tail, dd2, cnt2)
  | _ + 1, .alts _ [], dd, cnt => some ([], dd, cnt)
  | fuel + 1, .alts k (item :: rest), dd, cnt =>
    match run fuel (.seq k k item) dd cnt with
    | none => none
    | some (d1, dd1, cnt1) =>
      match run fuel (.alts k rest) dd1 cnt1 with
      | none => none
      | some (d2, dd2, cnt2) => some (d1 ++ d2, dd2, cnt2)

/-- Entry point of one `render(dot, dot_key, items, dd)` call (line 48):
`prev` starts at the given root `dot_key` (line 55). -/
def renderSeq (fuel : Nat) (dotKey : String) (items : List String)
    (dd : Table) (cnt : Nat) : Option (List Decl × Table × Nat) :=
  run fuel (.seq dotKey dotKey items) dd cnt

/-- The top-level loop of `main` (lines 112-118) over a snapshot of the rule
table's entries: boundary keys are skipped (but still advance `enumerate`'s
index), other keys get a color-less root node and each alternative is rendered
as a chain rooted there.  (CPython would raise if `render` inserted a new key
while `dd.items()` is being iterated; the snapshot models the run up to that
point.) -/
def topAux (fuel : Nat) : List (String × List (List String)) → Nat → Table → Nat →
    Option (List Decl × Table × Nat)
  | [], _, dd, cnt => some ([], dd, cnt)
  | (key, items) :: rest, idx, dd, cnt =>
    if topLevelIsBoundary key then topAux fuel rest (idx + 1) dd cnt
    else
      match run fuel (.alts (mkTopId key idx) items) dd cnt with
      | none => none
      | some (ds, dd1, cnt1) =>
        match topAux fuel rest (idx + 1) dd1 cnt1 with
        | none => none
        | some (ds2, dd2, cnt2) =>
          some (.plainNode (mkTopId key idx) key :: ds ++ ds2, dd2, cnt2)

/-- The whole expansion pass of `main` (lines 112-118), starting from the
process-initial `dbg_count` value. -/
def topLevel (fuel : Nat) (dd : Table) (cnt : Nat) : Option (List Decl × Table × Nat) :=
  topAux fuel dd 0 dd cnt

/-- The declarations of a run (`[]` for an exhausted run). -/
def declsOf : Option (List Decl × Table × Nat) → List Decl
  | none => []
  | some r => r.1

/-- The final rule table of a run (`[]` for an exhausted run). -/
def tableOf : Option (List Decl × Table × Nat) → Table
  | none => []
  | some r => r.2.1

/-- Whether a declaration list contains a `node` with the given label. -/
def hasNodeLabeled (ds : List Decl) (lbl : String) : Bool :=
  ds.any fun d => match d with
    | .node _ l _ => l == lbl
    | _ => false

/-- The synthesized identifiers of a declaration list: one per emitted leaf
node or cluster entry, in emission order. -/
def idsOf (ds : List Decl) : List String :=
  ds.filterMap fun d => match d with
    | .node i _ _ => some i
    | .openCluster i _ => some i
    | _ => none

/-- Decimal value of a digit character. -/
def digitVal (c : Char) : Nat := c.toNat - 48

/-- Fold a digit string to the number it denotes (accumulator form). -/
def decChars : List Char → Nat → Nat
  | [], a => a
  | c :: cs, a => decChars cs (a * 10 + digitVal c)

/-- The segment of a string after its last underscore (the whole string if it
has none). -/
def lastSeg (s : String) : List Char :=
  (s.data.reverse.takeWhile fun c => c != '_').reverse

/-- The counter component embedded in a synthesized identifier: the decimal
value of the segment after the last underscore. -/
def decOf (s : String) : Nat := decChars (lastSeg s) 0

/-- The input of §8's parenthesis-stripping test. -/
def c4text : String := "A(x) ::= B (annotation) C .\n"

/-- A rule with an empty right-hand side before the terminating dot. -/
def c10text : String := "A ::= .\n"

/-- A rule table with a direct self-reference on the boundary nonterminal
`lvalue`: `lvalue ::= x lvalue y .` -/
def ddSelf : Table := [("lvalue", [["x", "lvalue", "y"]])]

/-- A rule table whose only nonterminal references the unknown symbol `foo`. -/
def ddUnknown : Table := [("stmt", [["foo"]])]

/-- A rule table that references the boundary nonterminal `lvalue` without
registering any alternatives for it. -/
def ddMissing : Table := [("S", [["lvalue"]])]

mutual
/-- The linear-chain shape of an emitted declaration sequence (one level of
`render`): each element is either a leaf node or a cluster, it receives exactly
one edge from the previous element's identifier (the chain root for the first),
the identifier linked into the chain for a cluster is the cluster's own entry
identifier, and the chain continues from the element just produced. -/
inductive ChainFrom : String → List Decl → Prop where
  | nil (prev : String) : ChainFrom prev []
  | leaf (prev id lbl color : String) (rest : List Decl) :
      ChainFrom id rest →
      ChainFrom prev (.node id lbl color :: .edge prev id :: rest)
  | cluster (prev id lbl : String) (sub rest : List Decl) :
      Nested id sub → ChainFrom id rest →
      ChainFrom prev
        (.openCluster id lbl :: (sub ++ .closeCluster id :: .edge prev id :: rest))
/-- A cluster body is a concatenation of chains, each rooted at the cluster's
entry identifier. -/
inductive Nested : String → List Decl → Prop where
  | nil (entry : String) : Nested entry []
  | chunk (entry : String) (d1 d2 : List Decl) :
      ChainFrom entry d1 → Nested entry d2 → Nested entry (d1 ++ d2)
end

/-! ## Helper lemmas: decimal digits and identifier decoding -/

theorem digitVal_digitChar (d : Nat) (h : d < 10) :
    digitVal (Nat.digitChar d) = d := by
  interval_cases d <;> rfl

theorem digitChar_ne_underscore (d : Nat) (h : d < 10) :
    (Nat.digitChar d != '_') = true := by
  interval_cases d <;> rfl

theorem toDigitsCore_shift (fuel : Nat) :
    ∀ n ds, Nat.toDigitsCore 10 fuel n ds = Nat.toDigitsCore 10 fuel n [] ++ ds := by
  induction fuel with
  | zero => intro n ds; rfl
  | succ f ih =>
    intro n ds
    simp only [Nat.toDigitsCore]
    by_cases h0 : n / 10 = 0
    · simp [h0]
    · simp only [h0, if_false]
      rw [ih (n / 10) (Nat.digitChar (n % 10) :: ds), ih (n / 10) [Nat.digitChar (n % 10)],
        List.append_assoc, List.singleton_append]

theorem decChars_append (xs : List Char) :
    ∀ (c : Char) (a : Nat), decChars (xs ++ [c]) a = decChars xs a * 10 + digitVal c := by
  induction xs with
  | nil => intro c a; rfl
  | cons x xs ih => intro c a; simpa [decChars] using ih c (a * 10 + digitVal x)

theorem decChars_toDigitsCore (n : Nat) :
    ∀ fuel, n < fuel → decChars (Nat.toDigitsCore 10 fuel n []) 0 = n := by
  induction n using Nat.strong_induction_on with
  | _ n ih =>
    intro fuel h
    match fuel with
    | f + 1 =>
      simp only [Nat.toDigitsCore]
      by_cases h0 : n / 10 = 0
      · have h10 : n < 10 := by
          rcases Nat.lt_or_ge n 10 with h' | h'
          · exact h'
          · exact absurd h0 (by have := Nat.div_pos h' (by norm_num); omega)
        simp [h0, decChars, digitVal_digitChar n h10, Nat.mod_eq_of_lt h10]
      · have hn1 : 1 ≤ n := by
          by_contra hc
          exact h0 (by omega)
        have hdiv : n / 10 < n := Nat.div_lt_self hn1 (by norm_num)
        simp only [h0, if_false]
        rw [toDigitsCore_shift, decChars_append,
          ih (n / 10) hdiv f (by omega),
          digitVal_digitChar (n % 10) (Nat.mod_lt n (by norm_num))]
        omega

theorem toDigitsCore_mem :
    ∀ fuel n ds (c : Char), c ∈ Nat.toDigitsCore 10 fuel n ds →
      c ∈ ds ∨ ∃ d, d < 10 ∧ c = Nat.digitChar d := by
  intro fuel
  induction fuel with
  | zero => intro n ds c hc; exact Or.inl hc
  | succ f ih =>
    intro n ds c hc
    simp only [Nat.toDigitsCore] at hc
    by_cases h0 : n / 10 = 0
    · simp only [h0, if_true] at hc
      rcases List.mem_cons.mp hc with h | h
      · exact Or.inr ⟨n % 10, Nat.mod_lt n (by norm_num), h⟩
      · exact Or.inl h
    · simp only [h0, if_false] at hc
      rcases ih (n / 10) (Nat.digitChar (n % 10) :: ds) c hc with h | h
      · rcases List.mem_cons.mp h with h' | h'
        · exact Or.inr ⟨n % 10, Nat.mod_lt n (by norm_num), h'⟩
        · exact Or.inl h'
      · exact Or.inr h

theorem repr_data_eq (n : Nat) : (Nat.repr n).data = Nat.toDigitsCore 10 (n + 1) n [] := rfl

theorem repr_no_underscore (n : Nat) :
    ∀ c ∈ (Nat.repr n).data, (c != '_') = true := by
  intro c hc
  rw [repr_data_eq] at hc
  rcases toDigitsCore_mem (n + 1) n [] c hc with h | ⟨d, hd, rfl⟩
  · exact absurd h (List.not_mem_nil c)
  · exact digitChar_ne_underscore d hd

theorem decChars_repr (n : Nat) : decChars (Nat.repr n).data 0 = n := by
  rw [repr_data_eq]
  exact decChars_toDigitsCore n (n + 1) (Nat.lt_succ_self n)

theorem takeWhile_append_all {p : Char → Bool} :
    ∀ (l : List Char), (∀ c ∈ l, p c = true) →
      ∀ (c0 : Char) (rest : List Char), p c0 = false →
        (l ++ c0 :: rest).takeWhile p = l := by
  intro l
  induction l with
  | nil => intro _ c0 rest h0; simp [List.takeWhile_cons, h0]
  | cons x xs ih =>
    intro h c0 rest h0
    have hx : p x = true := h x (List.mem_cons_self x xs)
    simp only [List.cons_append, List.takeWhile_cons, hx, if_true]
    rw [ih (fun c hc => h c (List.mem_cons_of_mem x hc)) c0 rest h0]

theorem mkId_data (s c : String) (n : Nat) :
    (mkId s c n).data = s.data ++ '_' :: (c.data ++ '_' :: (Nat.repr n).data) := by
  have h : "_".data = ['_'] := rfl
  simp [mkId, String.data_append, h]

theorem decOf_mkId (s c : String) (n : Nat) : decOf (mkId s c n) = n := by
  unfold decOf lastSeg
  rw [mkId_data]
  have hrev : (s.data ++ '_' :: (c.data ++ '_' :: (Nat.repr n).data)).reverse
      = (Nat.repr n).data.reverse ++ '_' ::
        (c.data.reverse ++ '_' :: s.data.reverse) := by
    simp [List.reverse_append]
  rw [hrev]
  rw [takeWhile_append_all (Nat.repr n).data.reverse
    (fun ch hch => repr_no_underscore n ch (List.mem_reverse.mp hch))
    '_' _ (by decide)]
  rw [List.reverse_reverse]
  exact decChars_repr n

theorem mkId_cnt_inj {s1 c1 s2 c2 : String} {n1 n2 : Nat}
    (h : mkId s1 c1 n1 = mkId s2 c2 n2) : n1 = n2 := by
  have := congrArg decOf h
  rwa [decOf_mkId, decOf_mkId] at this

/-! ## Helper lemmas: unfolding the expander -/

theorem run_zero (job : Job) (dd : Table) (cnt : Nat) :
    run 0 job dd cnt = none := rfl

theorem run_seq_nil (fuel : Nat) (k prev : String) (dd : Table) (cnt : Nat) :
    run (fuel + 1) (.seq k prev []) dd cnt = some ([], dd, cnt) := rfl

theorem run_alts_nil (fuel : Nat) (k : String) (dd : Table) (cnt : Nat) :
    run (fuel + 1) (.alts k []) dd cnt = some ([], dd, cnt) := rfl

theorem run_seq_cons (fuel : Nat) (k prev orig : String) (rest : List String)
    (dd : Table) (cnt : Nat) :
    run (fuel + 1) (.seq k prev (orig :: rest)) dd cnt =
      if chainIsBoundary orig then
        match run fuel
            (.alts (mkId (resolve orig) k (cnt + 1)) (ddGet dd (resolve orig)).1)
            (ddGet dd (resolve orig)).2 (cnt + 1) with
        | none => none
        | some (sub, dd2, cnt2) =>
          match run fuel (.seq k (mkId (resolve orig) k (cnt + 1)) rest) dd2 cnt2 with
          | none => none
          | some (tail, dd3, cnt3) =>
            some (.openCluster (mkId (resolve orig) k (cnt + 1)) (resolve orig) ::
                (sub ++ .closeCluster (mkId (resolve orig) k (cnt + 1)) ::
                  .edge prev (mkId (resolve orig) k (cnt + 1)) :: tail),
              dd3, cnt3)
      else
        match run fuel (.seq k (mkId orig k (cnt + 1)) rest) dd (cnt + 1) with
        | none => none
        | some (tail, dd2, cnt2) =>
          some (.node (mkId orig k (cnt + 1)) (resolve orig) (leafColor orig) ::
              .edge prev (mkId orig k (cnt + 1)) :: tail,
            dd2, cnt2) := rfl

theorem run_alts_cons (fuel : Nat) (k : String) (item : List String)
    (rest : List (List String)) (dd : Table) (cnt : Nat) :
    run (fuel + 1) (.alts k (item :: rest)) dd cnt =
      match run fuel (.seq k k item) dd cnt with
      | none => none
      | some (d1, dd1, cnt1) =>
        match run fuel (.alts k rest) dd1 cnt1 with
        | none => none
        | some (d2, dd2, cnt2) => some (d1 ++ d2, dd2, cnt2) := rfl

theorem ddGet_ext (dd : Table) (k : String) :
    ∃ ext : Table, (ddGet dd k).2 = dd ++ ext ∧
      ∀ e ∈ ext, e.2 = ([] : List (List String)) := by
  unfold ddGet
  cases h : ddFind dd k with
  | some v => exact ⟨[], by simp, by simp⟩
  | none => exact ⟨[(k, [])], rfl, by simp⟩

theorem ddGet_of_find {dd : Table} {k : String} {v : List (List String)}
    (h : ddFind dd k = some v) : ddGet dd k = (v, dd) := by
  unfold ddGet; rw [h]

theorem idsOf_cluster (id v prev : String) (sub tail : List Decl) :
    idsOf (.openCluster id v :: (sub ++ .closeCluster id :: .edge prev id :: tail))
      = id :: (idsOf sub ++ idsOf tail) := by
  simp [idsOf, List.filterMap_cons, List.filterMap_append]

theorem idsOf_leaf (id v color prev : String) (tail : List Decl) :
    idsOf (.node id v color :: .edge prev id :: tail) = id :: idsOf tail := by
  simp [idsOf, List.filterMap_cons]

theorem run_master :
    ∀ fuel job dd cnt ds dd' cnt',
      run fuel job dd cnt = some (ds, dd', cnt') →
      (∃ ext : Table, dd' = dd ++ ext ∧ ∀ e ∈ ext, e.2 = ([] : List (List String))) ∧
      cnt ≤ cnt' ∧
      ((idsOf ds).map decOf).Pairwise (· < ·) ∧
      (∀ m ∈ (idsOf ds).map decOf, cnt < m ∧ m ≤ cnt') := by
  intro fuel
  induction fuel with
  | zero =>
    intro job dd cnt ds dd' cnt' h
    exact absurd h (by simp [run_zero])
  | succ fuel ih =>
    intro job dd cnt ds dd' cnt' h
    match job with
    | .seq k prev [] =>
      rw [run_seq_nil] at h
      simp only [Option.some.injEq, Prod.mk.injEq] at h
      obtain ⟨hds, hdd, hcnt⟩ := h
      subst hds hdd hcnt
      exact ⟨⟨[], by simp, by simp⟩, le_refl _, by simp [idsOf], by simp [idsOf]⟩
    | .alts k [] =>
      rw [run_alts_nil] at h
      simp only [Option.some.injEq, Prod.mk.injEq] at h
      obtain ⟨hds, hdd, hcnt⟩ := h
      subst hds hdd hcnt
      exact ⟨⟨[], by simp, by simp⟩, le_refl _, by simp [idsOf], by simp [idsOf]⟩
    | .seq k prev (orig :: rest) =>
      rw [run_seq_cons] at h
      by_cases hb : chainIsBoundary orig
      · rw [if_pos hb] at h
        split at h
        · exact absurd h (by simp)
        next sub dd2 cnt2 h1 =>
          split at h
          · exact absurd h (by simp)
          next tail dd3 cnt3 h2 =>
            simp only [Option.some.injEq, Prod.mk.injEq] at h
            obtain ⟨hds, hdd, hcnt⟩ := h
            subst hds hdd hcnt
            obtain ⟨ext1, hext1, hall1⟩ := ddGet_ext dd (resolve orig)
            obtain ⟨⟨ext2, hext2, hall2⟩, hc2, hp2, hb2⟩ := ih _ _ _ _ _ _ h1
            obtain ⟨⟨ext3, hext3, hall3⟩, hc3, hp3, hb3⟩ := ih _ _ _ _ _ _ h2
            refine ⟨⟨ext1 ++ ext2 ++ ext3, ?_, ?_⟩, by omega, ?_, ?_⟩
            · rw [hext3, hext2, hext1]; simp [List.append_assoc]
            · intro e he
              simp only [List.mem_append] at he
              rcases he with (he | he) | he
              · exact hall1 e he
              · exact hall2 e he
              · exact hall3 e he
            · rw [idsOf_cluster, List.map_cons, List.map_append, decOf_mkId]
              rw [List.pairwise_cons]
              refine ⟨?_, ?_⟩
              · intro b hbm
                rcases List.mem_append.mp hbm with hm | hm
                · exact (hb2 b hm).1
                · have := (hb3 b hm).1
                  omega
              · rw [List.pairwise_append]
                refine ⟨hp2, hp3, ?_⟩
                intro a ham b hbm
                have ha := (hb2 a ham).2
                have hbm' := (hb3 b hbm).1
                omega
            · rw [idsOf_cluster, List.map_cons, List.map_append, decOf_mkId]
              intro m hm
              rcases List.mem_cons.mp hm with rfl | hm'
              · omega
              · rcases List.mem_append.mp hm' with hm'' | hm''
                · have := hb2 m hm''
                  omega
                · have := hb3 m hm''
                  omega
      · rw [if_neg hb] at h
        split at h
        · exact absurd h (by simp)
        next tail dd2 cnt2 h2 =>
          simp only [Option.some.injEq, Prod.mk.injEq] at h
          obtain ⟨hds, hdd, hcnt⟩ := h
          subst hds hdd hcnt
          obtain ⟨⟨ext2, hext2, hall2⟩, hc2, hp2, hb2⟩ := ih _ _ _ _ _ _ h2
          refine ⟨⟨ext2, hext2, hall2⟩, by omega, ?_, ?_⟩
          · rw [idsOf_leaf, List.map_cons, decOf_mkId, List.pairwise_cons]
            exact ⟨fun b hbm => (hb2 b hbm).1, hp2⟩
          · rw [idsOf_leaf, List.map_cons, decOf_mkId]
            intro m hm
            rcases List.mem_cons.mp hm with rfl | hm'
            · omega
            · have := hb2 m hm'
              omega
    | .alts k (item :: rest) =>
      rw [run_alts_cons] at h
      split at h
      · exact absurd h (by simp)
      next d1 dd1 cnt1 h1 =>
        split at h
        · exact absurd h (by simp)
        next d2 dd2 cnt2 h2 =>
          simp only [Option.some.injEq, Prod.mk.injEq] at h
          obtain ⟨hds, hdd, hcnt⟩ := h
          subst hds hdd hcnt
          obtain ⟨⟨ext1, hext1, hall1⟩, hc1, hp1, hb1⟩ := ih _ _ _ _ _ _ h1
          obtain ⟨⟨ext2, hext2, hall2⟩, hc2, hp2, hb2⟩ := ih _ _ _ _ _ _ h2
          refine ⟨⟨ext1 ++ ext2, ?_, ?_⟩, by omega, ?_, ?_⟩
          · rw [hext2, hext1]; simp [List.append_assoc]
          · intro e he
            rcases List.mem_append.mp he with he | he
            · exact hall1 e he
            · exact hall2 e he
          · rw [idsOf, List.filterMap_append, List.map_append, List.pairwise_append]
            refine ⟨hp1, hp2, ?_⟩
            intro a ham b hbm
            have ha := (hb1 a ham).2
            have hbm' := (hb2 b hbm).1
            omega
          · rw [idsOf, List.filterMap_append, List.map_append]
            intro m hm
            rcases List.mem_append.mp hm with hm' | hm'
            · have := hb1 m hm'
              omega
            · have := hb2 m hm'
              omega

theorem run_chain :
    ∀ fuel job dd cnt ds dd' cnt',
      run fuel job dd cnt = some (ds, dd', cnt') →
      (match job with
       | .seq _ prev _ => ChainFrom prev ds
       | .alts k _ => Nested k ds) := by
  intro fuel
  induction fuel with
  | zero =>
    intro job dd cnt ds dd' cnt' h
    exact absurd h (by simp [run_zero])
  | succ fuel ih =>
    intro job dd cnt ds dd' cnt' h
    match job with
    | .seq k prev [] =>
      rw [run_seq_nil] at h
      simp only [Option.some.injEq, Prod.mk.injEq] at h
      obtain ⟨hds, _, _⟩ := h
      subst hds
      exact ChainFrom.nil prev
    | .alts k [] =>
      rw [run_alts_nil] at h
      simp only [Option.some.injEq, Prod.mk.injEq] at h
      obtain ⟨hds, _, _⟩ := h
      subst hds
      exact Nested.nil k
    | .seq k prev (orig :: rest) =>
      rw [run_seq_cons] at h
      by_cases hb : chainIsBoundary orig
      · rw [if_pos hb] at h
        split at h
        · exact absurd h (by simp)
        next sub dd2 cnt2 h1 =>
          split at h
          · exact absurd h (by simp)
          next tail dd3 cnt3 h2 =>
            simp only [Option.some.injEq, Prod.mk.injEq] at h
            obtain ⟨hds, _, _⟩ := h
            subst hds
            exact ChainFrom.cluster prev (mkId (resolve orig) k (cnt + 1)) (resolve orig)
              sub tail (ih _ _ _ _ _ _ h1) (ih _ _ _ _ _ _ h2)
      · rw [if_neg hb] at h
        split at h
        · exact absurd h (by simp)
        next tail dd2 cnt2 h2 =>
          simp only [Option.some.injEq, Prod.mk.injEq] at h
          obtain ⟨hds, _, _⟩ := h
          subst hds
          exact ChainFrom.leaf prev (mkId orig k (cnt + 1)) (resolve orig) (leafColor orig)
            tail (ih _ _ _ _ _ _ h2)
    | .alts k (item :: rest) =>
      rw [run_alts_cons] at h
      split at h
      · exact absurd h (by simp)
      next d1 dd1 cnt1 h1 =>
        split at h
        · exact absurd h (by simp)
        next d2 dd2 cnt2 h2 =>
          simp only [Option.some.injEq, Prod.mk.injEq] at h
          obtain ⟨hds, _, _⟩ := h
          subst hds
          exact Nested.chunk k d1 d2 (ih _ _ _ _ _ _ h1) (ih _ _ _ _ _ _ h2)

theorem run_lvalue_none (dd : Table)
    (hfind : ddFind dd "lvalue" = some [["x", "lvalue", "y"]]) :
    ∀ fuel (k prev : String) (rest : List String) (cnt : Nat),
      run fuel (.seq k prev ("lvalue" :: rest)) dd cnt = none := by
  intro fuel
  induction fuel using Nat.strong_induction_on with
  | _ fuel ih =>
    rcases fuel with _ | f
    · intro k prev rest cnt; rfl
    · intro k prev rest cnt
      rw [run_seq_cons, if_pos (show chainIsBoundary "lvalue" = true from rfl)]
      have hget : ddGet dd (resolve "lvalue") = ([["x", "lvalue", "y"]], dd) :=
        ddGet_of_find hfind
      have halts : ∀ g (id : String) (cnt' : Nat), g ≤ f →
          run g (.alts id [["x", "lvalue", "y"]]) dd cnt' = none := by
        intro g id cnt' hg
        rcases g with _ | g'
        · rfl
        · rw [run_alts_cons]
          have hseq : run g' (.seq id id ["x", "lvalue", "y"]) dd cnt' = none := by
            rcases g' with _ | g''
            · rfl
            · rw [run_seq_cons, if_neg (show ¬chainIsBoundary "x" = true by decide)]
              rw [ih g'' (by omega) id (mkId "x" id (cnt' + 1)) ["y"] (cnt' + 1)]
          rw [hseq]
      simp only [hget]
      rw [halts f (mkId (resolve "lvalue") k (cnt + 1)) (cnt + 1) (le_refl f)]

theorem run_leaf_single (fuel : Nat) (k p orig : String) (dd : Table) (cnt : Nat)
    (h : chainIsBoundary orig = false) :
    run (fuel + 2) (.seq k p [orig]) dd cnt =
      some ([.node (mkId orig k (cnt + 1)) (resolve orig) (leafColor orig),
             .edge p (mkId orig k (cnt + 1))], dd, cnt + 1) := by
  rw [show fuel + 2 = (fuel + 1) + 1 from rfl, run_seq_cons,
    if_neg (show ¬chainIsBoundary orig = true by simp [h])]
  rw [run_seq_nil]

theorem resolve_of_not_alias {orig : String} (h : isAlias orig = false) :
    resolve orig = orig := by
  unfold isAlias at h
  unfold resolve
  cases hf : List.find? (fun p => p.1 == orig) replace with
  | none => rfl
  | some v => rw [hf] at h; simp at h

theorem dropWhile_all_nil {p : Char → Bool} :
    ∀ l : List Char, l.all p = true → l.dropWhile p = [] := by
  intro l
  induction l with
  | nil => intro _; rfl
  | cons c cs ih =>
    intro h
    rw [List.all_cons, Bool.and_eq_true] at h
    simp [List.dropWhile_cons, h.1, ih h.2]

/-! ## Claim theorems -/

/-- C2, counterexample: with the rule `lvalue ::= x lvalue y .` and the
boundary nonterminal `lvalue`, expanding a sequence containing `lvalue` does
not terminate: the expansion exhausts every fuel bound (Python recurses
without bound), so the claimed terminating one-cluster expansion is false. -/
theorem c2_counterexample :
    (∃ fuel, (run fuel (.seq "r" "r" ["lvalue"]) ddSelf 0).isSome = true) = False := by
  apply eq_false
  rintro ⟨fuel, hf⟩
  rw [run_lvalue_none ddSelf rfl fuel "r" "r" [] 0] at hf
  exact absurd hf (by simp)

/-- C2, amended: for every RuleTable registering the direct self-reference
`lvalue ::= x lvalue y .` for the BoundarySet member `lvalue`, expanding any
sequence containing `lvalue` recurses without bound — the run returns `none`
at every fuel, i.e. it never terminates, rather than producing one cluster
per occurrence. -/
theorem c2_self_reference_diverges (dd : Table)
    (hfind : ddFind dd "lvalue" = some [["x", "lvalue", "y"]])
    (fuel : Nat) (k prev : String) (rest : List String) (cnt : Nat) :
    run fuel (.seq k prev ("lvalue" :: rest)) dd cnt = none :=
  run_lvalue_none dd hfind fuel k prev rest cnt

/-- Witness for C2's amended theorem at the concrete table `ddSelf`. -/
theorem c2_witness :
    ddFind ddSelf "lvalue" = some [["x", "lvalue", "y"]] ∧
      run 9 (.seq "r" "r" ["lvalue"]) ddSelf 0 = none :=
  ⟨rfl, c2_self_reference_diverges ddSelf rfl 9 "r" "r" [] 0⟩

/-- C3, counterexample: expanding the unknown symbol `foo` (absent from the
rule table and not a boundary name) silently emits a node labeled `foo` and
the run succeeds — no fatal condition is reported. -/
theorem c3_counterexample :
    hasNodeLabeled (declsOf (renderSeq 3 "stmt_0" ["foo"] ddUnknown 0)) "foo" = true ∧
      (renderSeq 3 "stmt_0" ["foo"] ddUnknown 0).isSome = true := by
  exact ⟨rfl, rfl⟩

/-- C3, amended: a symbol whose resolved label has no entry in the RuleTable
and is not in the BoundarySet is rendered silently as an ordinary leaf node
(label and color from the normal classification), the run succeeds, and the
table is untouched; no fatal condition is raised. -/
theorem c3_unknown_symbol_rendered (fuel : Nat) (k p orig : String) (dd : Table)
    (cnt : Nat) (hunk : ddFind dd (resolve orig) = none)
    (hnb : chainIsBoundary orig = false) :
    run (fuel + 2) (.seq k p [orig]) dd cnt =
      some ([.node (mkId orig k (cnt + 1)) (resolve orig) (leafColor orig),
             .edge p (mkId orig k (cnt + 1))], dd, cnt + 1) :=
  run_leaf_single fuel k p orig dd cnt hnb

/-- Witness for C3's amended theorem at the unknown symbol `foo`. -/
theorem c3_witness :
    (ddFind ddUnknown (resolve "foo") = none ∧ chainIsBoundary "foo" = false) ∧
      run 2 (.seq "stmt_0" "stmt_0" ["foo"]) ddUnknown 0 =
        some ([.node (mkId "foo" "stmt_0" 1) (resolve "foo") (leafColor "foo"),
               .edge "stmt_0" (mkId "foo" "stmt_0" 1)], ddUnknown, 1) :=
  ⟨⟨rfl, rfl⟩, c3_unknown_symbol_rendered 0 "stmt_0" "stmt_0" "foo" ddUnknown 0 rfl rfl⟩

/-- C4, counterexample: the Rule Extractor does not yield
`("A", ["B", "C"])` on the input `"A(x) ::= B (annotation) C .\n"`. -/
theorem c4_counterexample :
    (parseRules c4text = [("A", ["B", "C"])]) = False := by
  apply eq_false
  decide

/-- C4, amended: on the input `"A(x) ::= B (annotation) C .\n"` extraction
yields `("A", ["B", "", "C"])`: the parenthesized annotation is stripped from
its token only after whitespace splitting, so the wholly-parenthesized token
leaves an empty token in the right-hand list (the left-hand side is stripped
to `A` as claimed). -/
theorem c4_paren_strip : parseRules c4text = [("A", ["B", "", "C"])] := by
  decide

/-- C5, counterexample: the top-level loop's boundary decision and the chain
expansion's boundary decision disagree at the name `even`, which is both a
BoundarySet member and an alias-table key resolving to a different label. -/
theorem c5_counterexample :
    (topLevelIsBoundary "even" = chainIsBoundary "even") = False := by
  apply eq_false
  decide

/-- C5, amended: boundary membership is checked against the raw key in the
top-level loop but against the alias-resolved label in chain expansion; the
two decisions agree exactly for names whose resolved label is the name itself
(and disagree at `even`, whose alias resolves elsewhere). -/
theorem c5_boundary_checks_agree (name : String) (h : resolve name = name) :
    topLevelIsBoundary name = chainIsBoundary name := by
  unfold topLevelIsBoundary chainIsBoundary
  rw [h]

/-- Witness for C5's amended theorem at the unaliased boundary name
`lvalue`. -/
theorem c5_witness :
    resolve "lvalue" = "lvalue" ∧
      topLevelIsBoundary "lvalue" = chainIsBoundary "lvalue" :=
  ⟨rfl, c5_boundary_checks_agree "lvalue" rfl⟩

/-- C6, counterexample: expanding `["lvalue"]` against a table with no entry
for the boundary nonterminal `lvalue` mutates the table — the `defaultdict`
lookup inserts the key with an empty list — so the table after the run
differs from the table before. -/
theorem c6_counterexample :
    (tableOf (renderSeq 2 "S_0" ["lvalue"] ddMissing 0) = ddMissing) = False := by
  apply eq_false
  decide

/-- C6, amended: a run of the Graph Expander changes the RuleTable only by
appending entries with empty alternative lists — one for each boundary
nonterminal looked up without a registered entry; every entry present before
the run is preserved unchanged, and when all lookups hit, the table is
unchanged. -/
theorem c6_table_extension (fuel : Nat) (k prev : String) (items : List String)
    (dd : Table) (cnt : Nat) (ds : List Decl) (dd' : Table) (cnt' : Nat)
    (h : run fuel (.seq k prev items) dd cnt = some (ds, dd', cnt')) :
    ∃ ext : Table, dd' = dd ++ ext ∧ ∀ e ∈ ext, e.2 = ([] : List (List String)) :=
  (run_master fuel _ dd cnt ds dd' cnt' h).1

/-- Witness for C6's amended theorem at the concrete table `ddMissing`. -/
theorem c6_witness :
    run 2 (.seq "S_0" "S_0" ["lvalue"]) ddMissing 0 =
        some ([.openCluster (mkId "lvalue" "S_0" 1) "lvalue",
               .closeCluster (mkId "lvalue" "S_0" 1),
               .edge "S_0" (mkId "lvalue" "S_0" 1)],
          ddMissing ++ [("lvalue", [])], 1) ∧
      ∃ ext : Table, ddMissing ++ [("lvalue", [])] = ddMissing ++ ext ∧
        ∀ e ∈ ext, e.2 = ([] : List (List String)) :=
  ⟨rfl, c6_table_extension 2 "S_0" "S_0" ["lvalue"] ddMissing 0 _ _ _ rfl⟩

/-- C7: the token `GT` always renders as a node labeled `>` colored red; the
token `statement` (not uppercase, not an alias key) renders as a node with its
own text colored blue; and in general a leaf (a token whose resolved label is
not a boundary name) is red exactly when the raw token is uppercase or an
alias-table key, blue otherwise. -/
theorem c7_leaf_classification (fuel : Nat) (k p : String) (dd : Table) (cnt : Nat) :
    run (fuel + 2) (.seq k p ["GT"]) dd cnt =
        some ([.node (mkId "GT" k (cnt + 1)) ">" "red",
               .edge p (mkId "GT" k (cnt + 1))], dd, cnt + 1) ∧
      run (fuel + 2) (.seq k p ["statement"]) dd cnt =
        some ([.node (mkId "statement" k (cnt + 1)) "statement" "blue",
               .edge p (mkId "statement" k (cnt + 1))], dd, cnt + 1) ∧
      ∀ orig, chainIsBoundary orig = false →
        run (fuel + 2) (.seq k p [orig]) dd cnt =
          some ([.node (mkId orig k (cnt + 1)) (resolve orig)
                   (if pyIsUpper orig || isAlias orig then "red" else "blue"),
                 .edge p (mkId orig k (cnt + 1))], dd, cnt + 1) := by
  refine ⟨run_leaf_single fuel k p "GT" dd cnt rfl,
    run_leaf_single fuel k p "statement" dd cnt rfl, ?_⟩
  intro orig hnb
  have h := run_leaf_single fuel k p orig dd cnt hnb
  have hcol : leafColor orig = if pyIsUpper orig || isAlias orig then "red" else "blue" := by
    unfold leafColor
    cases ha : isAlias orig
    · rw [resolve_of_not_alias ha]
    · simp
  rwa [hcol] at h

/-- Witness for C7's general leaf clause at the token `abc`. -/
theorem c7_witness :
    chainIsBoundary "abc" = false ∧
      run 2 (.seq "k" "p" ["abc"]) [] 0 =
        some ([.node (mkId "abc" "k" 1) (resolve "abc")
                 (if pyIsUpper "abc" || isAlias "abc" then "red" else "blue"),
               .edge "p" (mkId "abc" "k" 1)], [], 1) :=
  ⟨rfl, (c7_leaf_classification 0 "k" "p" [] 0).2.2 "abc" rfl⟩

/-- C8: every successful expansion of a symbol sequence emits one linear
chain: each produced node or cluster receives exactly one edge from the
previously produced element (the root for the first), a cluster is linked
into the parent chain by its own entry identifier, and the chains nested in a
cluster each start from that entry identifier. -/
theorem c8_chain_structure (fuel : Nat) (k prev : String) (items : List String)
    (dd : Table) (cnt : Nat) (ds : List Decl) (dd' : Table) (cnt' : Nat)
    (h : run fuel (.seq k prev items) dd cnt = some (ds, dd', cnt')) :
    ChainFrom prev ds :=
  run_chain fuel (.seq k prev items) dd cnt ds dd' cnt' h

/-- Witness for C8 at a concrete two-leaf expansion. -/
theorem c8_witness :
    ChainFrom "r"
      [.node (mkId "GT" "r" 1) ">" "red", .edge "r" (mkId "GT" "r" 1),
       .node (mkId "LT" "r" 2) "<" "red", .edge (mkId "GT" "r" 1) (mkId "LT" "r" 2)] :=
  c8_chain_structure 3 "r" "r" ["GT", "LT"] [] 0
    [.node (mkId "GT" "r" 1) ">" "red", .edge "r" (mkId "GT" "r" 1),
     .node (mkId "LT" "r" 2) "<" "red", .edge (mkId "GT" "r" 1) (mkId "LT" "r" 2)]
    [] 2 rfl

/-- C9: within a single run, all synthesized identifiers (leaf nodes and
cluster entries) are pairwise distinct: each embeds the strictly increasing
occurrence counter after its last underscore, and the counter value determines
the identifier's decoded numeric suffix. -/
theorem c9_ids_distinct (fuel : Nat) (k prev : String) (items : List String)
    (dd : Table) (cnt : Nat) (ds : List Decl) (dd' : Table) (cnt' : Nat)
    (h : run fuel (.seq k prev items) dd cnt = some (ds, dd', cnt')) :
    (idsOf ds).Pairwise (· ≠ ·) := by
  have hp := (run_master fuel _ dd cnt ds dd' cnt' h).2.2.1
  have hp' := List.pairwise_map.mp hp
  exact hp'.imp fun hlt heq => absurd (heq ▸ hlt) (lt_irrefl _)

/-- Witness for C9: the same symbol expanded twice gets two distinct
identifiers. -/
theorem c9_witness :
    (idsOf [.node (mkId "GT" "r" 1) ">" "red", .edge "r" (mkId "GT" "r" 1),
            .node (mkId "GT" "r" 2) ">" "red",
            .edge (mkId "GT" "r" 1) (mkId "GT" "r" 2)]).Pairwise (· ≠ ·) :=
  c9_ids_distinct 3 "r" "r" ["GT", "GT"] [] 0
    [.node (mkId "GT" "r" 1) ">" "red", .edge "r" (mkId "GT" "r" 1),
     .node (mkId "GT" "r" 2) ">" "red", .edge (mkId "GT" "r" 1) (mkId "GT" "r" 2)]
    [] 2 rfl

/-- C10: a rule with an empty right-hand side before the terminating dot
extracts to a one-element list holding the empty token (`"A ::= ."` gives
`("A", [""])`, and in general an all-whitespace right-hand content tokenizes
to `[""]`); expanding the empty token emits a leaf node labeled
`\<empty string\>` colored red, chained to the root — it is never dropped. -/
theorem c10_empty_rhs :
    parseRules c10text = [("A", [""])] ∧
      (∀ content : List Char, content.all isWS = true → rhsTokens content = [""]) ∧
      ∀ (fuel : Nat) (k p : String) (dd : Table) (cnt : Nat),
        run (fuel + 2) (.seq k p [""]) dd cnt =
          some ([.node (mkId "" k (cnt + 1)) "\\<empty string\\>" "red",
                 .edge p (mkId "" k (cnt + 1))], dd, cnt + 1) := by
  refine ⟨by decide, ?_, ?_⟩
  · intro content hws
    unfold rhsTokens pyStrip
    rw [dropWhile_all_nil content hws]
    rfl
  · intro fuel k p dd cnt
    exact run_leaf_single fuel k p "" dd cnt rfl

/-- Witness for C10's all-whitespace clause at the content `" "`. -/
theorem c10_witness :
    ([' '] : List Char).all isWS = true ∧ rhsTokens [' '] = [""] :=
  ⟨rfl, c10_empty_rhs.2.1 [' '] rfl⟩

/-- C1, counterexample: two whole-expander runs in the same process on the
identical rule table and boundary set produce different declaration
sequences, because the second run starts from the `dbg_count` value left by
the first (here `1`), so its synthesized identifiers differ. -/
theorem c1_counterexample :
    (declsOf (topLevel 5 [("stmt", [["GT"]])] 1) =
        declsOf (topLevel 5 [("stmt", [["GT"]])] 0)) = False := by
  apply eq_false
  decide

/-- C1, amended: expansion is a deterministic function of RuleTable,
BoundarySet and the counter state, but the global `dbg_count` persists across
runs of one process; a second run of the same nonempty expansion, started from
the final counter of the first, never reproduces the first run's declaration
sequence — the first synthesized identifier already embeds a strictly larger
counter. -/
theorem c1_rerun_not_identical (fuel : Nat) (k p orig : String) (rest : List String)
    (dd : Table) (cnt : Nat) (ds1 : List Decl) (dd1 : Table) (c1 : Nat)
    (ds2 : List Decl) (dd2 : Table) (c2 : Nat)
    (h1 : run fuel (.seq k p (orig :: rest)) dd cnt = some (ds1, dd1, c1))
    (h2 : run fuel (.seq k p (orig :: rest)) dd c1 = some (ds2, dd2, c2)) :
    (ds1 = ds2) = False := by
  apply eq_false
  intro heq
  rcases fuel with _ | f
  · exact absurd h1 (by simp [run_zero])
  rw [run_seq_cons] at h1 h2
  by_cases hb : chainIsBoundary orig
  · rw [if_pos hb] at h1 h2
    split at h1
    · exact absurd h1 (by simp)
    next sub dd2' cnt2 e1 =>
      split at h1
      · exact absurd h1 (by simp)
      next tail dd3 cnt3 e2 =>
        split at h2
        · exact absurd h2 (by simp)
        next sub' dd2'' cnt2' e1' =>
          split at h2
          · exact absurd h2 (by simp)
          next tail' dd3' cnt3' e2' =>
            simp only [Option.some.injEq, Prod.mk.injEq] at h1 h2
            obtain ⟨hds1, _, hc1⟩ := h1
            obtain ⟨hds2, _, _⟩ := h2
            have hm1 := (run_master _ _ _ _ _ _ _ e1).2.1
            have hm2 := (run_master _ _ _ _ _ _ _ e2).2.1
            rw [← hds1, ← hds2] at heq
            simp only [List.cons.injEq, Decl.openCluster.injEq] at heq
            have := mkId_cnt_inj heq.1.1
            omega
  · rw [if_neg hb] at h1 h2
    split at h1
    · exact absurd h1 (by simp)
    next tail dd2' cnt2 e1 =>
      split at h2
      · exact absurd h2 (by simp)
      next tail' dd2'' cnt2' e1' =>
        simp only [Option.some.injEq, Prod.mk.injEq] at h1 h2
        obtain ⟨hds1, _, hc1⟩ := h1
        obtain ⟨hds2, _, _⟩ := h2
        have hm1 := (run_master _ _ _ _ _ _ _ e1).2.1
        rw [← hds1, ← hds2] at heq
        simp only [List.cons.injEq, Decl.node.injEq] at heq
        have := mkId_cnt_inj heq.1.1
        omega

/-- Witness for C1's amended theorem at a concrete pair of back-to-back
runs. -/
theorem c1_witness :
    (([.node (mkId "GT" "S_0" 1) ">" "red", .edge "S_0" (mkId "GT" "S_0" 1)] :
        List Decl) =
      [.node (mkId "GT" "S_0" 2) ">" "red", .edge "S_0" (mkId "GT" "S_0" 2)]) =
      False :=
  c1_rerun_not_identical 3 "S_0" "S_0" "GT" [] [] 0
    [.node (mkId "GT" "S_0" 1) ">" "red", .edge "S_0" (mkId "GT" "S_0" 1)] [] 1
    [.node (mkId "GT" "S_0" 2) ">" "red", .edge "S_0" (mkId "GT" "S_0" 2)] [] 2
    rfl rfl
